import Mathlib

/-!
Verification of the candidate scoring and ranking core of the
Agentic-Hiring-System-Prototype repository.

The definitions below are a shallow embedding of
`python/sourcing/candidate_scorer.py` and `python/utils/helpers.py`.
Python floats are modelled as exact rationals (`ℚ`); all constants involved
are short decimals, and every claim's tolerance (1e-6) is far above the
rounding error of binary floating point on these values.  Python dicts for
candidates and jobs are modelled as structures whose fields carry the
`dict.get` default used by the source when the key is absent
(e.g. an absent `experience_level` is represented by `"mid"`,
an absent `location` by `""`).  A separate reference/heap model of the
ranking routine (dictionaries as cells of a heap, copies as fresh cells)
is given further below for the frame/no-mutation claim.
-/

namespace Hiring

/-- Python's `str.lower()` (per-character ASCII lowercasing), written by
structural recursion over the character list so that concrete instances
reduce inside the kernel. -/
def lowerStr (s : String) : String :=
  ⟨s.data.map Char.toLower⟩

/-- Python's `str.strip()`: drop whitespace from both ends. -/
def trimStr (s : String) : String :=
  ⟨((s.data.dropWhile Char.isWhitespace).reverse.dropWhile Char.isWhitespace).reverse⟩

/-- Python's `str.split(sep)` for a one-character separator, on character
lists.  `"".split(",") = [""]` and separators at the ends produce empty
parts, as in Python. -/
def splitChars (sep : Char) : List Char → List (List Char)
  | [] => [[]]
  | c :: rest =>
    let r := splitChars sep rest
    if c = sep then [] :: r
    else
      match r with
      | [] => [[c]]
      | h :: t => (c :: h) :: t

/-- Python's `location.split(',')`. -/
def splitOnComma (s : String) : List String :=
  (splitChars ',' s.data).map (fun cs => ⟨cs⟩)

/-- `helpers.normalize_text`: `text.lower().strip()`. -/
def normalize_text (text : String) : String :=
  trimStr (lowerStr text)

/-- Python's substring test `pat in s` on strings. -/
def strContains (s pat : String) : Bool :=
  s.toList.tails.any (fun t => pat.toList.isPrefixOf t)

/-- `helpers.calculate_percentage_match`.  Python builds the two sets
`set(item.lower().strip() for item in …)` (modelled as `Finset String`) and
returns `len(required ∩ candidate) / len(required) * 100`, with an early
`100.0` for an empty `required` list. -/
def calculate_percentage_match (required candidate : List String) : ℚ :=
  if required.isEmpty then 100
  else
    let required_set := (required.map (fun item => trimStr (lowerStr item))).toFinset
    let candidate_set := (candidate.map (fun item => trimStr (lowerStr item))).toFinset
    ((required_set ∩ candidate_set).card : ℚ) / (required_set.card : ℚ) * 100

/-- A job posting, with the `dict.get` defaults of the source baked in:
absent `title`/`location` are `""`, absent `experience_level` is `"mid"`,
absent `required_skills` is `[]`. -/
structure Job where
  title : String
  required_skills : List String
  experience_level : String
  location : String
deriving DecidableEq, Repr

/-- A candidate record, with the source's `dict.get` defaults baked in
(absent `skills` is `[]`, absent `experience_years` is `0`, absent
`location` is `""`).  `education` is `Option String`: `none` models a
dict entry that is Python `None`; an absent key is the default `""`. -/
structure Candidate where
  full_name : String
  skills : List String
  experience_years : Nat
  location : String
  education : Option String
deriving DecidableEq, Repr

/-- The four scoring weights returned by weight determination. -/
structure Weights where
  skills_match : ℚ
  experience_match : ℚ
  location_match : ℚ
  education_match : ℚ
deriving DecidableEq, Repr

/-- Sum of the four weights. -/
def sumWeights (w : Weights) : ℚ :=
  w.skills_match + w.experience_match + w.location_match + w.education_match

/-- `CandidateScorer._adaptive_rule_based_weights`: the deterministic
rule-based weight table, translated adjustment by adjustment. -/
def adaptive_rule_based_weights (job : Job) : Weights :=
  let experience_level := lowerStr job.experience_level
  let title_lower := lowerStr job.title
  let base : Weights :=
    { skills_match := 40/100, experience_match := 30/100,
      location_match := 15/100, education_match := 15/100 }
  let w :=
    if experience_level = "senior" then
      { base with experience_match := 35/100, skills_match := 40/100,
                  education_match := 10/100, location_match := 15/100 }
    else if experience_level = "entry" then
      { base with education_match := 25/100, skills_match := 45/100,
                  experience_match := 15/100, location_match := 15/100 }
    else base
  let location := lowerStr job.location
  let w :=
    if strContains location "remote" then
      { w with location_match := 5/100, skills_match := w.skills_match + 10/100 }
    else w
  let w :=
    if ["engineer", "developer", "architect", "scientist"].any
        (fun kw => strContains title_lower kw) then
      { w with skills_match := min (50/100) (w.skills_match + 5/100),
               education_match := max (10/100) (w.education_match - 5/100) }
    else w
  w

/-- The advisory (LLM) weight response once it has survived the source's
extraction pipeline (`llm.generate`, the `\x7b[^\x7d]+\x7d` regex search and
`json.loads`): a JSON object in which each of the four weight keys may be
present or absent.  Any failure of that pipeline (the generate call raising,
no JSON found, `json.loads` failing, a non-numeric value) is modelled as the
whole parse being absent (`none` at the use site). -/
structure ParsedWeights where
  skills_match : Option ℚ
  experience_match : Option ℚ
  location_match : Option ℚ
  education_match : Option ℚ
deriving DecidableEq, Repr

/-- The `total` computed in `_determine_weights`: each key is read with
`weights.get(key, default)`. -/
def parsedTotal (p : ParsedWeights) : ℚ :=
  p.skills_match.getD (40/100) + p.experience_match.getD (30/100) +
    p.location_match.getD (15/100) + p.education_match.getD (15/100)

/-- `CandidateScorer._determine_weights`.  `advisory` is the outcome of the
advisory call as parsed by the source's pipeline (`none` = the call or the
parse failed, which the source catches with a blanket `except`).  When the
parsed total is positive the weights are renormalized; in every other case
the rule-based fallback is returned.  The function is total: no advisory
failure escapes to the caller. -/
def determine_weights (use_ai_weights : Bool) (advisory : Option ParsedWeights)
    (job : Job) : Weights :=
  match use_ai_weights, advisory with
  | true, some p =>
    let total := parsedTotal p
    if 0 < total then
      { skills_match := p.skills_match.getD (40/100) / total,
        experience_match := p.experience_match.getD (30/100) / total,
        location_match := p.location_match.getD (15/100) / total,
        education_match := p.education_match.getD (15/100) / total }
    else adaptive_rule_based_weights job
  | _, _ => adaptive_rule_based_weights job

/-- `CandidateScorer._score_skills_match`. -/
def score_skills_match (candidate : Candidate) (job : Job) : ℚ :=
  let required_skills := job.required_skills
  let candidate_skills := candidate.skills
  if required_skills.isEmpty then 100
  else
    let base_score := calculate_percentage_match required_skills candidate_skills
    if required_skills.length < candidate_skills.length then
      let bonus : ℚ :=
        min 10 (((candidate_skills.length - required_skills.length : Nat) : ℚ) * 2)
      min 100 (base_score + bonus)
    else base_score

/-- `CandidateScorer._score_experience`.  The `level_ranges` dict lookup
with default `(3, 7)` becomes a chain of equality tests. -/
def score_experience (candidate : Candidate) (job : Job) : ℚ :=
  let candidate_years := candidate.experience_years
  let required_level := lowerStr job.experience_level
  let yearRange : Nat × Nat :=
    if required_level = "entry" then (0, 2)
    else if required_level = "mid" then (3, 7)
    else if required_level = "senior" then (8, 15)
    else (3, 7)
  let min_years := yearRange.1
  let max_years := yearRange.2
  if min_years ≤ candidate_years ∧ candidate_years ≤ max_years then 100
  else if candidate_years < min_years then
    max 0 (100 - ((min_years - candidate_years : Nat) : ℚ) * 20)
  else
    max 50 (100 - ((candidate_years - max_years : Nat) : ℚ) * 10)

/-- `CandidateScorer._score_location`.  `matches` counts the job-location
comma parts `jp` such that `jp.strip() in cp` for some candidate part `cp`. -/
def score_location (candidate : Candidate) (job : Job) : ℚ :=
  let job_location := normalize_text job.location
  let candidate_location := normalize_text candidate.location
  if strContains job_location "remote" then 100
  else if job_location = candidate_location then 100
  else
    let job_parts := splitOnComma job_location
    let candidate_parts := splitOnComma candidate_location
    let numMatches := (job_parts.filter
      (fun jp => candidate_parts.any (fun cp => strContains cp (trimStr jp)))).length
    if 0 < numMatches then 70 + (numMatches : ℚ) * 10
    else if strContains candidate_location "remote" then 80
    else 40

/-- `CandidateScorer._score_education`.  `none` models Python `None`; the
absent-key default is `some ""`.  Both fall into the `60.0` branch. -/
def score_education (candidate : Candidate) (_job : Job) : ℚ :=
  match candidate.education with
  | none => 60
  | some e =>
    if e = "" then 60
    else
      let education := normalize_text e
      if strContains education "phd" || strContains education "ph.d" ||
          strContains education "doctorate" then 100
      else if strContains education "master" || strContains education "master's" then 90
      else if strContains education "bachelor" || strContains education "bachelor's" then 80
      else 60

/-- Python's `round(x, 2)` used for the presentation fields of the
breakdown.  Midpoint behaviour of float rounding is not relied on by any
claim; `round` here is Mathlib's rounding to the nearest integer of `100 x`. -/
def round2 (x : ℚ) : ℚ :=
  ((round (x * 100) : ℤ) : ℚ) / 100

/-- `CandidateScorer._get_matched_skills`: Python returns
`list(required ∩ candidate)` of normalized skills; the iteration order of a
Python set is not specified, so the value is modelled as the `Finset`. -/
def get_matched_skills (candidate : Candidate) (job : Job) : Finset String :=
  (job.required_skills.map normalize_text).toFinset ∩
    (candidate.skills.map normalize_text).toFinset

/-- `CandidateScorer._get_missing_skills`. -/
def get_missing_skills (candidate : Candidate) (job : Job) : Finset String :=
  (job.required_skills.map normalize_text).toFinset \
    (candidate.skills.map normalize_text).toFinset

/-- The `breakdown` dict built by `score_candidate`. -/
structure Breakdown where
  overall_score : ℚ
  skills_score : ℚ
  experience_score : ℚ
  location_score : ℚ
  education_score : ℚ
  weights_used : Weights
  skills_matched : Finset String
  skills_missing : Finset String
deriving DecidableEq

/-- `CandidateScorer.score_candidate`.  The scorer object's `self.weights`
cache is threaded explicitly: `state` is the cache before the call, the
first component of the result is the cache after it (`if not self.weights:
self.weights = self._determine_weights(job)`). -/
def score_candidate (use_ai_weights : Bool) (advisory : Option ParsedWeights)
    (state : Option Weights) (candidate : Candidate) (job : Job) :
    Option Weights × ℚ × Breakdown :=
  let skills_score := score_skills_match candidate job
  let experience_score := score_experience candidate job
  let location_score := score_location candidate job
  let education_score := score_education candidate job
  let weights :=
    match state with
    | some w => w
    | none => determine_weights use_ai_weights advisory job
  let overall_score :=
    skills_score * weights.skills_match +
    experience_score * weights.experience_match +
    location_score * weights.location_match +
    education_score * weights.education_match
  (some weights, overall_score,
    { overall_score := round2 overall_score,
      skills_score := round2 skills_score,
      experience_score := round2 experience_score,
      location_score := round2 location_score,
      education_score := round2 education_score,
      weights_used := weights,
      skills_matched := get_matched_skills candidate job,
      skills_missing := get_missing_skills candidate job })

/-- A candidate dict after the scoring loop of `rank_candidates` has copied
it and attached `match_score` and `match_details`. -/
structure ScoredCandidate where
  base : Candidate
  match_score : ℚ
  match_details : Breakdown
deriving DecidableEq

/-- A scored candidate after rank assignment.  `ai_assessment` is `none`
when the key was never added, `some (some s)` for advisory text `s` and
`some none` when the advisory call failed and the source stored `None`. -/
structure RankedCandidate where
  base : Candidate
  match_score : ℚ
  match_details : Breakdown
  ranking : Nat
  ai_assessment : Option (Option String)
deriving DecidableEq

/-- The ordering used by the sort in `rank_candidates`:
`sort(key=lambda x: x['match_score'], reverse=True)` places larger scores
first. -/
def scoreDescLE (a b : ScoredCandidate) : Prop :=
  b.match_score ≤ a.match_score

instance : DecidableRel scoreDescLE :=
  fun a b => inferInstanceAs (Decidable (b.match_score ≤ a.match_score))

instance : IsTotal ScoredCandidate scoreDescLE :=
  ⟨fun a b => le_total b.match_score a.match_score⟩

instance : IsTrans ScoredCandidate scoreDescLE :=
  ⟨fun _ _ _ hab hbc => le_trans hbc hab⟩

/-- One iteration of the scoring loop of `CandidateRanker.rank_candidates`:
score the candidate, then append a copy carrying `match_score` and
`match_details`. -/
def scoreStep (use_ai_weights : Bool) (advisory : Option ParsedWeights) (job : Job)
    (acc : Option Weights × List ScoredCandidate) (c : Candidate) :
    Option Weights × List ScoredCandidate :=
  let r := score_candidate use_ai_weights advisory acc.1 c job
  (r.1, acc.2 ++ [⟨c, r.2.1, r.2.2⟩])

/-- The sort of `rank_candidates`: Python's `list.sort` is a stable sort,
and the output of a stable sort with respect to a total preorder is unique,
so it is modelled by `List.insertionSort`, which is stable for
`scoreDescLE`. -/
def sort_scored (l : List ScoredCandidate) : List ScoredCandidate :=
  l.insertionSort scoreDescLE

/-- The ranking loop `for rank, candidate in enumerate(scored_candidates, 1):
candidate['ranking'] = rank`. -/
def assign_rankings (l : List ScoredCandidate) : List RankedCandidate :=
  (List.enumFrom 1 l).map (fun p =>
    ({ base := p.2.base, match_score := p.2.match_score,
       match_details := p.2.match_details, ranking := p.1,
       ai_assessment := none } : RankedCandidate))

/-- The `_enhance_top_candidates` step, applied to `scored[:top_n]` and
re-concatenated with `scored[top_n:]` exactly when
`self.scorer.use_ai_weights and top_n` is truthy.  `assess` models the
outcome of the per-candidate advisory call (`none` = the call raised and
the source stored `None` under the `ai_assessment` key). -/
def enhance_top (use_ai_weights : Bool) (assess : Candidate → Option String)
    (top_n : Option Nat) (ranked : List RankedCandidate) : List RankedCandidate :=
  match use_ai_weights, top_n with
  | true, some n =>
    if n = 0 then ranked
    else
      (ranked.take n).map
        (fun (c : RankedCandidate) =>
          { c with ai_assessment := some (assess c.base) }) ++ ranked.drop n
  | _, _ => ranked

/-- The final truncation `scored_candidates[:top_n] if top_n else
scored_candidates` (`top_n = some 0` is Python's falsy `top_n = 0`). -/
def truncate_top (top_n : Option Nat) (l : List RankedCandidate) :
    List RankedCandidate :=
  match top_n with
  | some n => if n = 0 then l else l.take n
  | none => l

/-- `CandidateRanker.rank_candidates`.  The result is `none` exactly when
the final log statement `scored_candidates[0]['match_score']` raises
`IndexError`, which happens iff the candidate list is empty; otherwise it
is the updated weight cache together with the (possibly truncated) ranked
list. -/
def rank_candidates (use_ai_weights : Bool) (advisory : Option ParsedWeights)
    (assess : Candidate → Option String) (state : Option Weights)
    (candidates : List Candidate) (job : Job) (top_n : Option Nat) :
    Option (Option Weights × List RankedCandidate) :=
  let folded := candidates.foldl (scoreStep use_ai_weights advisory job) (state, [])
  let enhanced :=
    enhance_top use_ai_weights assess top_n (assign_rankings (sort_scored folded.2))
  match enhanced.head? with
  | none => none
  | some _ => some (folded.1, truncate_top top_n enhanced)

/-! ### Helper lemmas about `calculate_percentage_match` -/

theorem percentage_match_nonneg (required candidate : List String) :
    0 ≤ calculate_percentage_match required candidate := by
  unfold calculate_percentage_match
  split
  · norm_num
  · positivity

theorem percentage_match_le_100 (required candidate : List String) :
    calculate_percentage_match required candidate ≤ 100 := by
  unfold calculate_percentage_match
  split
  · norm_num
  · rename_i hreq
    dsimp only
    set rs := (required.map (fun item => trimStr (lowerStr item))).toFinset with hrs
    set cs := (candidate.map (fun item => trimStr (lowerStr item))).toFinset with hcs
    have hcard : (rs ∩ cs).card ≤ rs.card :=
      Finset.card_le_card (Finset.inter_subset_left)
    have hpos : 0 < rs.card := by
      rcases required with _ | ⟨a, l⟩
      · simp at hreq
      · apply Finset.card_pos.mpr
        exact ⟨trimStr (lowerStr a), by simp [hrs]⟩
    have h1 : ((rs ∩ cs).card : ℚ) / (rs.card : ℚ) ≤ 1 := by
      rw [div_le_one (by exact_mod_cast hpos)]
      exact_mod_cast hcard
    calc ((rs ∩ cs).card : ℚ) / (rs.card : ℚ) * 100 ≤ 1 * 100 := by
          apply mul_le_mul_of_nonneg_right h1 (by norm_num)
      _ = 100 := by norm_num

/-- C4: `calculate_percentage_match` returns `100.0` whenever `required` is
empty; otherwise it is the normalized-set intersection ratio times 100
(which is the body of the definition itself, translated from the source);
the result always lies in `[0, 100]`; and
`calculate_percentage_match ["Python", "Java"] ["python"] = 50`. -/
theorem claim_C4_percentage_match (required candidate : List String) :
    (required = [] → calculate_percentage_match required candidate = 100) ∧
    0 ≤ calculate_percentage_match required candidate ∧
    calculate_percentage_match required candidate ≤ 100 ∧
    calculate_percentage_match ["Python", "Java"] ["python"] = 50 := by
  refine ⟨?_, percentage_match_nonneg _ _, percentage_match_le_100 _ _, by with_unfolding_all decide⟩
  intro h
  simp [calculate_percentage_match, h]

/-- Witness for C4 at concrete inputs. -/
theorem claim_C4_percentage_match_witness :
    calculate_percentage_match [] ["anything"] = 100 ∧
    calculate_percentage_match ["Python", "Java"] ["python"] = 50 :=
  ⟨(claim_C4_percentage_match [] ["anything"]).1 rfl,
   (claim_C4_percentage_match ["Python", "Java"] ["python"]).2.2.2⟩

/-- The experience-score mapping exactly as the spec's words state it, for
comparison with the translated `score_experience`: job `experience_level`
maps to an ideal inclusive year range (entry `[0,2]`, mid `[3,7]`,
senior `[8,15]`, anything unrecognized uses mid's range); inside the range
the score is 100, below it `max 0 (100 - gap * 20)`, above it
`max 50 (100 - gap * 10)`. -/
def spec_experience_score (years : Nat) (level : String) : ℚ :=
  let idealRange : Nat × Nat :=
    if level = "entry" then (0, 2)
    else if level = "mid" then (3, 7)
    else if level = "senior" then (8, 15)
    else (3, 7)
  if idealRange.1 ≤ years ∧ years ≤ idealRange.2 then 100
  else if years < idealRange.1 then
    max 0 (100 - ((idealRange.1 - years : Nat) : ℚ) * 20)
  else
    max 50 (100 - ((years - idealRange.2 : Nat) : ℚ) * 10)

/-- C5: for every candidate and every job whose `experience_level` is
already lower-case (which covers the spec's enum values and every
unrecognized lower-case level), `score_experience` is exactly the spec's
piecewise function; and for a senior job, 8 years score 100, 5 years score
40, and 20 years score 50. -/
theorem claim_C5_experience_score (c : Candidate) (j : Job) :
    (lowerStr j.experience_level = j.experience_level →
      score_experience c j = spec_experience_score c.experience_years j.experience_level) ∧
    score_experience ⟨"", [], 8, "", none⟩ ⟨"", [], "senior", ""⟩ = 100 ∧
    score_experience ⟨"", [], 5, "", none⟩ ⟨"", [], "senior", ""⟩ = 40 ∧
    score_experience ⟨"", [], 20, "", none⟩ ⟨"", [], "senior", ""⟩ = 50 := by
  refine ⟨?_, by with_unfolding_all decide, by with_unfolding_all decide, by with_unfolding_all decide⟩
  intro h
  unfold score_experience spec_experience_score
  rw [h]

/-- Witness for C5 at a concrete senior job with an over-qualified
candidate. -/
theorem claim_C5_experience_score_witness :
    score_experience ⟨"", [], 20, "", none⟩ ⟨"", [], "senior", ""⟩ =
      spec_experience_score 20 "senior" ∧
    score_experience ⟨"", [], 8, "", none⟩ ⟨"", [], "senior", ""⟩ = 100 :=
  ⟨(claim_C5_experience_score ⟨"", [], 20, "", none⟩ ⟨"", [], "senior", ""⟩).1 (by decide),
   (claim_C5_experience_score ⟨"", [], 20, "", none⟩ ⟨"", [], "senior", ""⟩).2.1⟩

/-- C1 counterexample: for the job (title "Software Engineer", experience
level "senior", location "NYC") the rule-based weights are
`0.45 / 0.35 / 0.15 / 0.10`: the title adjustment raises skills by 0.05
while the education floor `max(0.10, 0.10 - 0.05)` absorbs the intended
−0.05, so the sum is 1.05, outside tolerance 1e-6 of 1.0. -/
theorem claim_C1_counterexample :
    sumWeights (adaptive_rule_based_weights
      ⟨"Software Engineer", [], "senior", "NYC"⟩) = 21/20 ∧
    ¬ |sumWeights (adaptive_rule_based_weights
      ⟨"Software Engineer", [], "senior", "NYC"⟩) - 1| ≤ 1/1000000 := by
  with_unfolding_all decide

/-- C1 amended: the rule-based weight sum is exactly 1 unless the title
contains a technical keyword and exactly one of {senior level, remote
location} holds; in those branches the skills cap `min(0.50, ·)` and the
education floor `max(0.10, ·)` do not cancel, giving sums 21/20
(senior, non-remote), 9/10 (entry, remote) and 19/20 (mid or unrecognized
level, remote). -/
theorem claim_C1_rule_weight_sum (job : Job) :
    sumWeights (adaptive_rule_based_weights job) =
      (if (["engineer", "developer", "architect", "scientist"].any
            (fun kw => strContains (lowerStr job.title) kw)) then
        (if lowerStr job.experience_level = "senior" then
          (if strContains (lowerStr job.location) "remote" then 1 else 21/20)
        else if strContains (lowerStr job.location) "remote" then
          (if lowerStr job.experience_level = "entry" then 9/10 else 19/20)
        else 1)
      else 1) := by
  unfold adaptive_rule_based_weights sumWeights
  dsimp only
  split_ifs <;> norm_num [min_def, max_def]

/-! ### Bounds on the four sub-scores -/

theorem score_skills_match_bounds (c : Candidate) (j : Job) :
    0 ≤ score_skills_match c j ∧ score_skills_match c j ≤ 100 := by
  unfold score_skills_match
  dsimp only
  split_ifs
  · norm_num
  · constructor
    · exact le_min (by norm_num)
        (add_nonneg (percentage_match_nonneg _ _) (le_min (by norm_num) (by positivity)))
    · exact min_le_left _ _
  · exact ⟨percentage_match_nonneg _ _, percentage_match_le_100 _ _⟩

theorem score_experience_bounds (c : Candidate) (j : Job) :
    0 ≤ score_experience c j ∧ score_experience c j ≤ 100 := by
  unfold score_experience
  dsimp only
  split_ifs <;> refine ⟨?_, ?_⟩ <;> norm_num

theorem score_education_bounds (c : Candidate) (j : Job) :
    0 ≤ score_education c j ∧ score_education c j ≤ 100 := by
  unfold score_education
  rcases c.education with _ | e
  · norm_num
  · dsimp only
    split_ifs <;> norm_num

theorem score_location_bounds (c : Candidate) (j : Job) :
    40 ≤ score_location c j ∧
    score_location c j ≤
      max 100 (70 + 10 * ((splitOnComma (normalize_text j.location)).length : ℚ)) := by
  unfold score_location
  dsimp only
  split_ifs with h1 h2 h3 h4
  · exact ⟨by norm_num, le_max_left _ _⟩
  · exact ⟨by norm_num, le_max_left _ _⟩
  · constructor
    · have : (0:ℚ) ≤ (((splitOnComma (normalize_text j.location)).filter
        (fun jp => (splitOnComma (normalize_text c.location)).any
          (fun cp => strContains cp (trimStr jp)))).length : ℚ) := by positivity
      linarith
    · refine le_max_of_le_right ?_
      have hlen : (((splitOnComma (normalize_text j.location)).filter
          (fun jp => (splitOnComma (normalize_text c.location)).any
            (fun cp => strContains cp (trimStr jp)))).length : ℚ) ≤
          ((splitOnComma (normalize_text j.location)).length : ℚ) := by
        exact_mod_cast List.length_filter_le _ _
      linarith
  · exact ⟨by norm_num, le_max_of_le_left (by norm_num)⟩
  · exact ⟨by norm_num, le_max_of_le_left (by norm_num)⟩

/-- Each rule-based weight is nonnegative and the four sum to at most
21/20 (the exact sums per branch are 9/10, 19/20, 1 and 21/20). -/
theorem rule_weights_bounds (job : Job) :
    0 ≤ (adaptive_rule_based_weights job).skills_match ∧
    0 ≤ (adaptive_rule_based_weights job).experience_match ∧
    0 ≤ (adaptive_rule_based_weights job).location_match ∧
    0 ≤ (adaptive_rule_based_weights job).education_match ∧
    sumWeights (adaptive_rule_based_weights job) ≤ 21/20 := by
  unfold adaptive_rule_based_weights sumWeights
  dsimp only
  split_ifs <;> norm_num [min_def, max_def]

/-- C2 counterexample: for job location "a,b,c,d" and candidate location
"d,c,b,a" every one of the four comma parts matches, so
`_score_location` returns `70 + 4 × 10 = 110 > 100`, and with the
rule-based base weights the overall score is `101.5 > 100`. -/
theorem claim_C2_counterexample :
    score_location ⟨"", [], 5, "d,c,b,a", some "phd"⟩ ⟨"", [], "mid", "a,b,c,d"⟩ = 110 ∧
    ¬ score_location ⟨"", [], 5, "d,c,b,a", some "phd"⟩ ⟨"", [], "mid", "a,b,c,d"⟩ ≤ 100 ∧
    (score_candidate false none none ⟨"", [], 5, "d,c,b,a", some "phd"⟩
      ⟨"", [], "mid", "a,b,c,d"⟩).2.1 = 203/2 ∧
    ¬ (score_candidate false none none ⟨"", [], 5, "d,c,b,a", some "phd"⟩
      ⟨"", [], "mid", "a,b,c,d"⟩).2.1 ≤ 100 := by
  with_unfolding_all decide

/-- C2 amended: the skills, experience and education sub-scores do lie in
`[0, 100]`; the location sub-score is at least 40 but is bounded only by
`max 100 (70 + 10 p)` where `p` is the number of comma parts of the job's
normalized location, and it exceeds 100 when at least four parts match;
consequently the overall score under the rule-based weights is nonnegative
and bounded by `21/20 · max 100 (70 + 10 p)` rather than by 100. -/
theorem claim_C2_score_bounds (c : Candidate) (j : Job) :
    (0 ≤ score_skills_match c j ∧ score_skills_match c j ≤ 100) ∧
    (0 ≤ score_experience c j ∧ score_experience c j ≤ 100) ∧
    (0 ≤ score_education c j ∧ score_education c j ≤ 100) ∧
    (40 ≤ score_location c j ∧
      score_location c j ≤
        max 100 (70 + 10 * ((splitOnComma (normalize_text j.location)).length : ℚ))) ∧
    (0 ≤ (score_candidate false none none c j).2.1 ∧
      (score_candidate false none none c j).2.1 ≤
        21/20 * max 100 (70 + 10 * ((splitOnComma (normalize_text j.location)).length : ℚ))) := by
  obtain ⟨hs0, hs1⟩ := score_skills_match_bounds c j
  obtain ⟨he0, he1⟩ := score_experience_bounds c j
  obtain ⟨hd0, hd1⟩ := score_education_bounds c j
  obtain ⟨hl0, hl1⟩ := score_location_bounds c j
  refine ⟨⟨hs0, hs1⟩, ⟨he0, he1⟩, ⟨hd0, hd1⟩, ⟨hl0, hl1⟩, ?_, ?_⟩
  all_goals
    obtain ⟨hw1, hw2, hw3, hw4, hwsum⟩ := rule_weights_bounds j
    have hov : (score_candidate false none none c j).2.1 =
        score_skills_match c j * (adaptive_rule_based_weights j).skills_match +
        score_experience c j * (adaptive_rule_based_weights j).experience_match +
        score_location c j * (adaptive_rule_based_weights j).location_match +
        score_education c j * (adaptive_rule_based_weights j).education_match := rfl
    rw [hov]
  · have := mul_nonneg hs0 hw1
    have := mul_nonneg he0 hw2
    have := mul_nonneg (le_trans (by norm_num) hl0) hw3
    have := mul_nonneg hd0 hw4
    linarith
  · set M : ℚ :=
      max 100 (70 + 10 * ((splitOnComma (normalize_text j.location)).length : ℚ)) with hM
    have hM100 : (100:ℚ) ≤ M := le_max_left _ _
    have t1 : score_skills_match c j * (adaptive_rule_based_weights j).skills_match ≤
        M * (adaptive_rule_based_weights j).skills_match :=
      mul_le_mul_of_nonneg_right (le_trans hs1 hM100) hw1
    have t2 : score_experience c j * (adaptive_rule_based_weights j).experience_match ≤
        M * (adaptive_rule_based_weights j).experience_match :=
      mul_le_mul_of_nonneg_right (le_trans he1 hM100) hw2
    have t3 : score_location c j * (adaptive_rule_based_weights j).location_match ≤
        M * (adaptive_rule_based_weights j).location_match :=
      mul_le_mul_of_nonneg_right hl1 hw3
    have t4 : score_education c j * (adaptive_rule_based_weights j).education_match ≤
        M * (adaptive_rule_based_weights j).education_match :=
      mul_le_mul_of_nonneg_right (le_trans hd1 hM100) hw4
    have hsum : M * sumWeights (adaptive_rule_based_weights j) ≤ M * (21/20) :=
      mul_le_mul_of_nonneg_left hwsum (le_trans (by norm_num) hM100)
    have hexp : M * sumWeights (adaptive_rule_based_weights j) =
        M * (adaptive_rule_based_weights j).skills_match +
        M * (adaptive_rule_based_weights j).experience_match +
        M * (adaptive_rule_based_weights j).location_match +
        M * (adaptive_rule_based_weights j).education_match := by
      rw [sumWeights]; ring
    linarith

/-- C8: weight determination never propagates an advisory failure.  If the
advisory is unused (`use_ai_weights = false`), failed to produce a parse
(`advisory = none`, covering generate errors, missing JSON and parse
errors), or parsed with total ≤ 0, the deterministic rule-based weights are
returned — `determine_weights` is a total function, so no error reaches the
caller.  If a parse exists with positive total, each weight is the raw
(`dict.get`-defaulted) value divided by the total, and the result sums to
exactly 1. -/
theorem claim_C8_weight_fallback (use_ai : Bool) (advisory : Option ParsedWeights)
    (job : Job) :
    (advisory = none →
      determine_weights use_ai advisory job = adaptive_rule_based_weights job) ∧
    (use_ai = false →
      determine_weights use_ai advisory job = adaptive_rule_based_weights job) ∧
    (∀ p, advisory = some p → parsedTotal p ≤ 0 →
      determine_weights use_ai advisory job = adaptive_rule_based_weights job) ∧
    (∀ p, advisory = some p → 0 < parsedTotal p → use_ai = true →
      determine_weights use_ai advisory job =
        { skills_match := p.skills_match.getD (40/100) / parsedTotal p,
          experience_match := p.experience_match.getD (30/100) / parsedTotal p,
          location_match := p.location_match.getD (15/100) / parsedTotal p,
          education_match := p.education_match.getD (15/100) / parsedTotal p } ∧
      sumWeights (determine_weights use_ai advisory job) = 1) := by
  refine ⟨?_, ?_, ?_, ?_⟩
  · rintro rfl
    cases use_ai <;> rfl
  · rintro rfl
    cases advisory <;> rfl
  · rintro p rfl hle
    cases use_ai
    · rfl
    · simp [determine_weights, not_lt.mpr hle]
  · rintro p rfl hpos rfl
    have hne : parsedTotal p ≠ 0 := ne_of_gt hpos
    constructor
    · simp [determine_weights, hpos]
    · simp only [determine_weights, hpos, if_pos, sumWeights]
      rw [div_add_div_same, div_add_div_same, div_add_div_same]
      exact div_self hne

/-- Witness for C8: a failed advisory falls back to the rule table, and the
parse `{skills 2, experience 1, location 1, education 1}` (total 5) is
renormalized to a sum of exactly 1. -/
theorem claim_C8_weight_fallback_witness :
    determine_weights true none ⟨"t", [], "mid", "loc"⟩ =
      adaptive_rule_based_weights ⟨"t", [], "mid", "loc"⟩ ∧
    determine_weights true (some ⟨some 2, some 1, some 1, some 1⟩)
        ⟨"t", [], "mid", "loc"⟩ =
      { skills_match := (2:ℚ) / parsedTotal ⟨some 2, some 1, some 1, some 1⟩,
        experience_match := (1:ℚ) / parsedTotal ⟨some 2, some 1, some 1, some 1⟩,
        location_match := (1:ℚ) / parsedTotal ⟨some 2, some 1, some 1, some 1⟩,
        education_match := (1:ℚ) / parsedTotal ⟨some 2, some 1, some 1, some 1⟩ } ∧
    sumWeights (determine_weights true (some ⟨some 2, some 1, some 1, some 1⟩)
      ⟨"t", [], "mid", "loc"⟩) = 1 := by
  have h1 := (claim_C8_weight_fallback true none ⟨"t", [], "mid", "loc"⟩).1 rfl
  have h4 := (claim_C8_weight_fallback true (some ⟨some 2, some 1, some 1, some 1⟩)
    ⟨"t", [], "mid", "loc"⟩).2.2.2 ⟨some 2, some 1, some 1, some 1⟩ rfl
    (by with_unfolding_all decide) rfl
  exact ⟨h1, h4.1, h4.2⟩

theorem rank_candidates_nil (use_ai : Bool) (advisory : Option ParsedWeights)
    (assess : Candidate → Option String) (state : Option Weights) (job : Job)
    (top_n : Option Nat) :
    rank_candidates use_ai advisory assess state [] job top_n = none := by
  cases use_ai <;> cases top_n <;>
    simp [rank_candidates, sort_scored, assign_rankings, enhance_top]

/-- C3: on the empty candidate list the source does not return the empty
list: the final log statement indexes `scored_candidates[0]` and raises
`IndexError`, modelled here by the `none` result. -/
theorem claim_C3_empty_input (use_ai : Bool) (advisory : Option ParsedWeights)
    (assess : Candidate → Option String) (state : Option Weights) (job : Job)
    (top_n : Option Nat) :
    rank_candidates use_ai advisory assess state [] job top_n = none :=
  rank_candidates_nil use_ai advisory assess state job top_n

/-! ### Characterizing the ranking pipeline -/

/-- The overall score of a candidate under a fixed weight set (the dot
product computed in `score_candidate`). -/
def overall_with (w : Weights) (c : Candidate) (j : Job) : ℚ :=
  score_skills_match c j * w.skills_match +
  score_experience c j * w.experience_match +
  score_location c j * w.location_match +
  score_education c j * w.education_match

/-- The breakdown of a candidate under a fixed weight set. -/
def breakdown_with (w : Weights) (c : Candidate) (j : Job) : Breakdown :=
  { overall_score := round2 (overall_with w c j),
    skills_score := round2 (score_skills_match c j),
    experience_score := round2 (score_experience c j),
    location_score := round2 (score_location c j),
    education_score := round2 (score_education c j),
    weights_used := w,
    skills_matched := get_matched_skills c j,
    skills_missing := get_missing_skills c j }

/-- The scored record appended by the scoring loop, under a fixed weight
set. -/
def scored_with (w : Weights) (j : Job) (c : Candidate) : ScoredCandidate :=
  ⟨c, overall_with w c j, breakdown_with w c j⟩

theorem score_candidate_eq (u : Bool) (a : Option ParsedWeights)
    (st : Option Weights) (c : Candidate) (j : Job) :
    score_candidate u a st c j =
      (some (st.getD (determine_weights u a j)),
       overall_with (st.getD (determine_weights u a j)) c j,
       breakdown_with (st.getD (determine_weights u a j)) c j) := by
  cases st <;> rfl

theorem foldl_scoreStep_some (u : Bool) (a : Option ParsedWeights) (j : Job)
    (w : Weights) :
    ∀ (cs : List Candidate) (acc : List ScoredCandidate),
      cs.foldl (scoreStep u a j) (some w, acc) =
        (some w, acc ++ cs.map (scored_with w j)) := by
  intro cs
  induction cs with
  | nil => simp
  | cons c cs ih =>
    intro acc
    rw [List.foldl_cons, List.map_cons]
    have hstep : scoreStep u a j (some w, acc) c =
        (some w, acc ++ [scored_with w j c]) := by
      simp [scoreStep, score_candidate_eq, scored_with]
    rw [hstep, ih]
    simp

theorem foldl_scoreStep_eq (u : Bool) (a : Option ParsedWeights) (j : Job)
    (st : Option Weights) (cs : List Candidate) :
    cs.foldl (scoreStep u a j) (st, []) =
      (if cs = [] then st else some (st.getD (determine_weights u a j)),
       cs.map (scored_with (st.getD (determine_weights u a j)) j)) := by
  cases cs with
  | nil => simp
  | cons c cs =>
    rw [List.foldl_cons, List.map_cons]
    have hstep : scoreStep u a j (st, []) c =
        (some (st.getD (determine_weights u a j)),
         [scored_with (st.getD (determine_weights u a j)) j c]) := by
      simp [scoreStep, score_candidate_eq, scored_with]
    rw [hstep, foldl_scoreStep_some]
    simp

theorem length_sort_scored (l : List ScoredCandidate) :
    (sort_scored l).length = l.length :=
  List.length_insertionSort _ _

theorem length_assign_rankings (l : List ScoredCandidate) :
    (assign_rankings l).length = l.length := by
  simp [assign_rankings]

theorem length_enhance_top (u : Bool) (f : Candidate → Option String)
    (t : Option Nat) (l : List RankedCandidate) :
    (enhance_top u f t l).length = l.length := by
  unfold enhance_top
  cases u <;> cases t <;> simp
  split <;> simp
  omega

/-- The characterization of a successful `rank_candidates` call: the input
was nonempty, the cached weights are the resolved weight set, and the
output list is the composition of the pipeline stages applied to the
scored candidates. -/
theorem rank_candidates_some (u : Bool) (a : Option ParsedWeights)
    (f : Candidate → Option String) (st : Option Weights) (cs : List Candidate)
    (j : Job) (t : Option Nat) (res : Option Weights × List RankedCandidate)
    (heq : rank_candidates u a f st cs j t = some res) :
    cs ≠ [] ∧
    res.1 = some (st.getD (determine_weights u a j)) ∧
    res.2 = truncate_top t (enhance_top u f t (assign_rankings (sort_scored
      (cs.map (scored_with (st.getD (determine_weights u a j)) j))))) := by
  have hcs : cs ≠ [] := by
    rintro rfl
    rw [rank_candidates_nil] at heq
    exact Option.noConfusion heq
  refine ⟨hcs, ?_⟩
  unfold rank_candidates at heq
  rw [foldl_scoreStep_eq, if_neg hcs] at heq
  dsimp only at heq
  set enhanced := enhance_top u f t (assign_rankings (sort_scored
    (cs.map (scored_with (st.getD (determine_weights u a j)) j)))) with henh
  have hne : enhanced ≠ [] := by
    have hlen : enhanced.length = cs.length := by
      rw [henh, length_enhance_top, length_assign_rankings, length_sort_scored,
        List.length_map]
    intro hnil
    rw [hnil] at hlen
    exact hcs (List.eq_nil_of_length_eq_zero hlen.symm)
  rcases henh' : enhanced.head? with _ | e
  · exact absurd (List.head?_eq_none_iff.mp henh') hne
  · rw [henh'] at heq
    dsimp only at heq
    cases heq
    exact ⟨rfl, rfl⟩

theorem pairwise_assign_rankings {l : List ScoredCandidate}
    (h : l.Pairwise scoreDescLE) :
    (assign_rankings l).Pairwise
      (fun x y => y.match_score ≤ x.match_score) := by
  unfold assign_rankings
  rw [List.pairwise_map]
  have h2 : (List.enumFrom 1 l).map Prod.snd = l := List.enumFrom_map_snd 1 l
  rw [← h2, List.pairwise_map] at h
  exact h

theorem enumFrom_map_proj {α β : Type _} (g : α → β) :
    ∀ (n : Nat) (l : List α),
      (List.enumFrom n l).map (fun p => g p.2) = l.map g
  | _, [] => rfl
  | n, a :: l => by
    simp only [List.enumFrom, List.map_cons, List.map]
    rw [enumFrom_map_proj g (n + 1) l]

theorem assign_rankings_map_base (l : List ScoredCandidate) :
    (assign_rankings l).map (fun e => e.base) = l.map (fun s => s.base) := by
  unfold assign_rankings
  rw [List.map_map]
  exact enumFrom_map_proj (fun s => s.base) 1 l

theorem assign_rankings_map_ranking (l : List ScoredCandidate) :
    (assign_rankings l).map (fun e => e.ranking) = List.range' 1 l.length := by
  unfold assign_rankings
  rw [List.map_map]
  exact List.enumFrom_map_fst 1 l

theorem enhance_top_none (u : Bool) (f : Candidate → Option String)
    (l : List RankedCandidate) : enhance_top u f none l = l := by
  cases u <;> rfl

theorem truncate_top_none (l : List RankedCandidate) :
    truncate_top none l = l := rfl

/-- C6: whenever `rank_candidates` (untruncated) returns, the output is
sorted by `match_score` in descending order, and any two input candidates
with equal overall score under the resolved weight set appear in the output
in their input order (stability). -/
theorem claim_C6_stable_sort (u : Bool) (a : Option ParsedWeights)
    (f : Candidate → Option String) (st : Option Weights) (cs : List Candidate)
    (j : Job) (res : Option Weights × List RankedCandidate)
    (heq : rank_candidates u a f st cs j none = some res) :
    res.2.Pairwise (fun x y => y.match_score ≤ x.match_score) ∧
    (∀ c1 c2 : Candidate,
      overall_with (st.getD (determine_weights u a j)) c1 j =
        overall_with (st.getD (determine_weights u a j)) c2 j →
      List.Sublist [c1, c2] cs →
      List.Sublist [c1, c2] (res.2.map (fun e => e.base))) := by
  obtain ⟨hcs, h1, h2⟩ := rank_candidates_some u a f st cs j none res heq
  rw [truncate_top_none, enhance_top_none] at h2
  constructor
  · rw [h2]
    exact pairwise_assign_rankings (List.sorted_insertionSort scoreDescLE _)
  · intro c1 c2 hsc hsub
    have hsub1 : List.Sublist [scored_with (st.getD (determine_weights u a j)) j c1,
        scored_with (st.getD (determine_weights u a j)) j c2]
        (cs.map (scored_with (st.getD (determine_weights u a j)) j)) := by
      simpa using List.Sublist.map (scored_with (st.getD (determine_weights u a j)) j) hsub
    have hr : scoreDescLE (scored_with (st.getD (determine_weights u a j)) j c1)
        (scored_with (st.getD (determine_weights u a j)) j c2) :=
      le_of_eq hsc.symm
    have hst := List.pair_sublist_insertionSort hr hsub1
    rw [h2, assign_rankings_map_base]
    simpa [sort_scored] using
      List.Sublist.map (fun s : ScoredCandidate => s.base) hst

/-- Witness for C6: two identical candidates tie and keep their input
order; the output is sorted. -/
theorem claim_C6_stable_sort_witness :
    ((rank_candidates false none (fun _ => none) none
        [⟨"W", ["python"], 3, "x", none⟩, ⟨"W", ["python"], 3, "x", none⟩]
        ⟨"t", ["python"], "mid", "x"⟩ none).getD (none, [])).2.Pairwise
      (fun x y => y.match_score ≤ x.match_score) ∧
    List.Sublist [(⟨"W", ["python"], 3, "x", none⟩ : Candidate),
     ⟨"W", ["python"], 3, "x", none⟩]
      (((rank_candidates false none (fun _ => none) none
        [⟨"W", ["python"], 3, "x", none⟩, ⟨"W", ["python"], 3, "x", none⟩]
        ⟨"t", ["python"], "mid", "x"⟩ none).getD (none, [])).2.map
        (fun e => e.base)) := by
  cases hres : rank_candidates false none (fun _ => none) none
      [⟨"W", ["python"], 3, "x", none⟩, ⟨"W", ["python"], 3, "x", none⟩]
      ⟨"t", ["python"], "mid", "x"⟩ none with
  | none => exact absurd hres (by with_unfolding_all decide)
  | some res =>
    have h := claim_C6_stable_sort false none (fun _ => none) none
      [⟨"W", ["python"], 3, "x", none⟩, ⟨"W", ["python"], 3, "x", none⟩]
      ⟨"t", ["python"], "mid", "x"⟩ res hres
    exact ⟨h.1, h.2 _ _ rfl (List.Sublist.refl _)⟩

theorem take_range' : ∀ (k s n : Nat),
    (List.range' s n).take k = List.range' s (min k n)
  | 0, _, _ => by simp
  | _ + 1, _, 0 => by simp
  | k + 1, s, n + 1 => by
    rw [List.range'_succ, List.take_succ_cons, take_range' k (s + 1) n,
      Nat.succ_min_succ, List.range'_succ]

theorem enhance_top_map_ranking (u : Bool) (f : Candidate → Option String)
    (t : Option Nat) (l : List RankedCandidate) :
    (enhance_top u f t l).map (fun e => e.ranking) =
      l.map (fun e => e.ranking) := by
  cases u
  · cases t <;> rfl
  · cases t
    · rfl
    · rename_i n
      by_cases hn : n = 0
      · have hface : enhance_top true f (some n) l = l := by
          unfold enhance_top
          simp [hn]
        rw [hface]
      · have hface : enhance_top true f (some n) l =
            (l.take n).map
              (fun c : RankedCandidate =>
                { c with ai_assessment := some (f c.base) }) ++ l.drop n := by
          unfold enhance_top
          simp [hn]
        rw [hface, List.map_append, List.map_map]
        have hcomp : ((fun e : RankedCandidate => e.ranking) ∘
            (fun c : RankedCandidate =>
              { c with ai_assessment := some (f c.base) })) =
            (fun e : RankedCandidate => e.ranking) := rfl
        rw [hcomp, List.map_take, List.map_drop, List.take_append_drop]

/-- C7: whenever `rank_candidates` with a positive `top_n = k` returns, the
output has exactly `min k n` entries (`n` the input length), and their
`ranking` values are `1, …, min k n` — the smallest `min k n` ranks of the
full ranking `1, …, n`, since ranks are assigned before truncation. -/
theorem claim_C7_truncation (u : Bool) (a : Option ParsedWeights)
    (f : Candidate → Option String) (st : Option Weights) (cs : List Candidate)
    (j : Job) (k : Nat) (res : Option Weights × List RankedCandidate)
    (hk : 0 < k)
    (heq : rank_candidates u a f st cs j (some k) = some res) :
    res.2.length = min k cs.length ∧
    res.2.map (fun e => e.ranking) = List.range' 1 (min k cs.length) := by
  obtain ⟨hcs, h1, h2⟩ := rank_candidates_some u a f st cs j (some k) res heq
  have hk0 : k ≠ 0 := Nat.pos_iff_ne_zero.mp hk
  rw [show truncate_top (some k) (enhance_top u f (some k) (assign_rankings
      (sort_scored (cs.map (scored_with (st.getD (determine_weights u a j)) j))))) =
    (enhance_top u f (some k) (assign_rankings (sort_scored
      (cs.map (scored_with (st.getD (determine_weights u a j)) j))))).take k from by
    simp [truncate_top, hk0]] at h2
  have hlen : (enhance_top u f (some k) (assign_rankings (sort_scored
      (cs.map (scored_with (st.getD (determine_weights u a j)) j))))).length =
      cs.length := by
    rw [length_enhance_top, length_assign_rankings, length_sort_scored,
      List.length_map]
  constructor
  · rw [h2, List.length_take, hlen]
  · rw [h2, List.map_take, enhance_top_map_ranking, assign_rankings_map_ranking,
      length_sort_scored, List.length_map, take_range']

/-- Witness for C7 at two candidates and `top_n = 1`. -/
theorem claim_C7_truncation_witness :
    ((rank_candidates false none (fun _ => none) none
        [⟨"A", [], 3, "x", none⟩, ⟨"B", [], 9, "x", none⟩]
        ⟨"t", [], "mid", "x"⟩ (some 1)).getD (none, [])).2.length = 1 ∧
    ((rank_candidates false none (fun _ => none) none
        [⟨"A", [], 3, "x", none⟩, ⟨"B", [], 9, "x", none⟩]
        ⟨"t", [], "mid", "x"⟩ (some 1)).getD (none, [])).2.map
      (fun e => e.ranking) = [1] := by
  cases hres : rank_candidates false none (fun _ => none) none
      [⟨"A", [], 3, "x", none⟩, ⟨"B", [], 9, "x", none⟩]
      ⟨"t", [], "mid", "x"⟩ (some 1) with
  | none => exact absurd hres (by with_unfolding_all decide)
  | some res =>
    have h := claim_C7_truncation false none (fun _ => none) none
      [⟨"A", [], 3, "x", none⟩, ⟨"B", [], 9, "x", none⟩]
      ⟨"t", [], "mid", "x"⟩ 1 res (by norm_num) hres
    exact ⟨h.1, h.2⟩

theorem mem_truncate_top {t : Option Nat} {l : List RankedCandidate}
    {e : RankedCandidate} (he : e ∈ truncate_top t l) : e ∈ l := by
  unfold truncate_top at he
  cases t with
  | none => exact he
  | some n =>
    by_cases hn : n = 0
    · simpa [hn] using he
    · dsimp only at he
      rw [if_neg hn] at he
      exact (List.take_sublist n l).subset he

theorem mem_enhance_top {u : Bool} {f : Candidate → Option String}
    {t : Option Nat} {l : List RankedCandidate} {e : RankedCandidate}
    (he : e ∈ enhance_top u f t l) :
    ∃ x ∈ l, e.base = x.base ∧ e.match_score = x.match_score ∧
      e.match_details = x.match_details ∧ e.ranking = x.ranking := by
  have hid : e ∈ l →
      ∃ x ∈ l, e.base = x.base ∧ e.match_score = x.match_score ∧
        e.match_details = x.match_details ∧ e.ranking = x.ranking :=
    fun h => ⟨e, h, rfl, rfl, rfl, rfl⟩
  cases u
  · cases t <;> exact hid he
  · cases t with
    | none => exact hid he
    | some n =>
      by_cases hn : n = 0
      · apply hid
        unfold enhance_top at he
        simpa [hn] using he
      · unfold enhance_top at he
        dsimp only at he
        rw [if_neg hn] at he
        rcases List.mem_append.mp he with hin | hin
        · rcases List.mem_map.mp hin with ⟨x, hx, hex⟩
          exact ⟨x, (List.take_sublist n l).subset hx,
            by rw [← hex], by rw [← hex], by rw [← hex], by rw [← hex]⟩
        · exact hid ((List.drop_sublist n l).subset hin)

theorem mem_assign_rankings {l : List ScoredCandidate} {e : RankedCandidate}
    (he : e ∈ assign_rankings l) :
    ∃ s ∈ l, e.base = s.base ∧ e.match_score = s.match_score ∧
      e.match_details = s.match_details := by
  unfold assign_rankings at he
  rcases List.mem_map.mp he with ⟨p, hp, hep⟩
  refine ⟨p.2, ?_, by rw [← hep], by rw [← hep], by rw [← hep]⟩
  have : p.2 ∈ (List.enumFrom 1 l).map Prod.snd := List.mem_map_of_mem Prod.snd hp
  rwa [List.enumFrom_map_snd] at this

/-- C9 counterexample: a ranker whose scorer already ranked an entry-level
job keeps that job's weights when it then ranks a senior job, because
`self.weights` is cached per scorer instance, not per job.  The second
run's breakdown carries the entry job's weights, which differ from the
senior job's own rule-based weights. -/
theorem claim_C9_counterexample :
    ((rank_candidates false none (fun _ => none) none
        [⟨"X", [], 3, "x", none⟩] ⟨"", [], "entry", "x"⟩ none).bind
      (fun r => rank_candidates false none (fun _ => none) r.1
        [⟨"X", [], 3, "x", none⟩] ⟨"", [], "senior", "x"⟩ none)).map
      (fun r => r.2.map (fun e => e.match_details.weights_used)) =
      some [adaptive_rule_based_weights ⟨"", [], "entry", "x"⟩] ∧
    adaptive_rule_based_weights ⟨"", [], "entry", "x"⟩ ≠
      adaptive_rule_based_weights ⟨"", [], "senior", "x"⟩ := by
  with_unfolding_all decide

/-- C9 amended: within a single ranking call every candidate is scored
against one and the same weight set — resolved once, on first use, and
cached; but the cache lives on the scorer instance, so the resolved set is
the cached one when a previous call already filled it
(`st.getD (determine_weights u a j)`), not necessarily one determined from
this job's own attributes. -/
theorem claim_C9_weights_once (u : Bool) (a : Option ParsedWeights)
    (f : Candidate → Option String) (st : Option Weights) (cs : List Candidate)
    (j : Job) (t : Option Nat) (res : Option Weights × List RankedCandidate)
    (heq : rank_candidates u a f st cs j t = some res) :
    res.1 = some (st.getD (determine_weights u a j)) ∧
    ∀ e ∈ res.2, e.match_details.weights_used =
      st.getD (determine_weights u a j) := by
  obtain ⟨hcs, h1, h2⟩ := rank_candidates_some u a f st cs j t res heq
  refine ⟨h1, ?_⟩
  intro e he
  rw [h2] at he
  obtain ⟨x, hx, _, _, hed, _⟩ := mem_enhance_top (mem_truncate_top he)
  obtain ⟨s, hs, _, _, hxd⟩ := mem_assign_rankings hx
  have hsmem : s ∈ cs.map (scored_with (st.getD (determine_weights u a j)) j) := by
    have := (List.mem_insertionSort scoreDescLE).mp hs
    simpa [sort_scored] using hs
  rcases List.mem_map.mp hsmem with ⟨c, _, hcs'⟩
  rw [hed, hxd, ← hcs']
  rfl

/-- Witness for C9: a fresh scorer resolves the rule-based weights for the
job it ranks. -/
theorem claim_C9_weights_once_witness :
    ((rank_candidates false none (fun _ => none) none
        [⟨"Y", [], 4, "x", none⟩] ⟨"t", [], "senior", "x"⟩ none).getD
      (none, [])).1 =
      some (adaptive_rule_based_weights ⟨"t", [], "senior", "x"⟩) := by
  cases hres : rank_candidates false none (fun _ => none) none
      [⟨"Y", [], 4, "x", none⟩] ⟨"t", [], "senior", "x"⟩ none with
  | none => exact absurd hres (by with_unfolding_all decide)
  | some res =>
    exact (claim_C9_weights_once false none (fun _ => none) none
      [⟨"Y", [], 4, "x", none⟩] ⟨"t", [], "senior", "x"⟩ none res hres).1

/-! ### A reference/heap model of `rank_candidates` for the frame claim

To state that the source never mutates its input dictionaries, Python
dictionaries are modelled as cells of a heap (`Heap := List Dict`, a cell
per object, addressed by position), and every dictionary operation of
`rank_candidates` is an explicit heap operation: `candidate.copy()`
allocates a fresh cell holding the same entries, and every key assignment
(`match_score`, `match_details`, `ranking`, `ai_assessment`) is a write to
a cell. -/

/-- A Python value stored in a candidate/job dictionary. -/
inductive Val where
  | vNum : ℚ → Val
  | vStr : String → Val
  | vList : List String → Val
  | vNat : Nat → Val
  | vBreak : Breakdown → Val
  | vNone : Val
deriving DecidableEq

/-- A Python dictionary: a finite list of key/value entries. -/
abbrev Dict := List (String × Val)

/-- `d.get(k)`-style lookup (first matching key). -/
def dictGet (d : Dict) (k : String) : Option Val :=
  (d.find? (fun p => p.1 = k)).map (fun p => p.2)

/-- `d[k] = v`: replace the value of an existing key, else append. -/
def dictSet (d : Dict) (k : String) (v : Val) : Dict :=
  if d.any (fun p => p.1 = k) then
    d.map (fun p => if p.1 = k then (k, v) else p)
  else d ++ [(k, v)]

/-- Read a candidate record out of a dictionary, applying the same
`dict.get` defaults as the source (`skills → []`,
`experience_years → 0`, `location → ''`, `education → ''`; an explicit
Python `None` education is `none`). -/
def candOfDict (d : Dict) : Candidate :=
  { full_name :=
      match dictGet d "full_name" with
      | some (Val.vStr s) => s
      | _ => "",
    skills :=
      match dictGet d "skills" with
      | some (Val.vList l) => l
      | _ => [],
    experience_years :=
      match dictGet d "experience_years" with
      | some (Val.vNat n) => n
      | _ => 0,
    location :=
      match dictGet d "location" with
      | some (Val.vStr s) => s
      | _ => "",
    education :=
      match dictGet d "education" with
      | some (Val.vStr s) => some s
      | some Val.vNone => none
      | _ => some "" }

/-- Read a job record out of a dictionary, with the source's `dict.get`
defaults (`title → ''`, `required_skills → []`,
`experience_level → 'mid'`, `location → ''`). -/
def jobOfDict (d : Dict) : Job :=
  { title :=
      match dictGet d "title" with
      | some (Val.vStr s) => s
      | _ => "",
    required_skills :=
      match dictGet d "required_skills" with
      | some (Val.vList l) => l
      | _ => [],
    experience_level :=
      match dictGet d "experience_level" with
      | some (Val.vStr s) => s
      | _ => "mid",
    location :=
      match dictGet d "location" with
      | some (Val.vStr s) => s
      | _ => "" }

/-- The sort key `x['match_score']`; in the pipeline the key is always
present and numeric. -/
def getScore (d : Dict) : ℚ :=
  match dictGet d "match_score" with
  | some (Val.vNum q) => q
  | _ => 0

/-- The heap of dictionary objects; a reference is a position. -/
abbrev Heap := List Dict

/-- Dereference (a dangling reference reads the empty dictionary). -/
def heapGet (h : Heap) (r : Nat) : Dict :=
  h.getD r []

/-- Write through a reference. -/
def heapSet (h : Heap) (r : Nat) (d : Dict) : Heap :=
  h.set r d

/-- The body of one scoring-loop iteration after the score is computed:
`candidate_with_score = candidate.copy()` (allocate a fresh cell), then
`candidate_with_score['match_score'] = score` and
`candidate_with_score['match_details'] = breakdown` (writes to the fresh
cell). -/
def alloc_scored (h : Heap) (cd : Dict) (score : ℚ) (bd : Breakdown) : Heap :=
  let newRef := h.length
  let h1 := h ++ [cd]
  let h2 := heapSet h1 newRef
    (dictSet (heapGet h1 newRef) "match_score" (Val.vNum score))
  heapSet h2 newRef
    (dictSet (heapGet h2 newRef) "match_details" (Val.vBreak bd))

/-- The scoring loop of `rank_candidates` on the heap: for each candidate
reference, score the dictionary's candidate record, then run
`alloc_scored`; the fresh reference is appended to the accumulator. -/
def score_loop_heap (u : Bool) (a : Option ParsedWeights) (j : Job) :
    Heap → Option Weights → List Nat → List Nat → Heap × Option Weights × List Nat
  | h, st, [], acc => (h, st, acc)
  | h, st, r :: rs, acc =>
    let cd := heapGet h r
    let sc := score_candidate u a st (candOfDict cd) j
    score_loop_heap u a j (alloc_scored h cd sc.2.1 sc.2.2) sc.1 rs
      (acc ++ [h.length])

/-- The sort relation on references:
`key=lambda x: x['match_score'], reverse=True` read through the heap. -/
def sortRefsLE (h : Heap) (a b : Nat) : Prop :=
  getScore (heapGet h b) ≤ getScore (heapGet h a)

instance (h : Heap) : DecidableRel (sortRefsLE h) :=
  fun a b => inferInstanceAs (Decidable (getScore (heapGet h b) ≤ getScore (heapGet h a)))

/-- The ranking loop `for rank, candidate in enumerate(scored_candidates, 1):
candidate['ranking'] = rank` on the heap. -/
def rank_loop_heap : Heap → Nat → List Nat → Heap
  | h, _, [] => h
  | h, rank, r :: rs =>
    rank_loop_heap
      (heapSet h r (dictSet (heapGet h r) "ranking" (Val.vNat rank))) (rank + 1) rs

/-- `_enhance_top_candidates` on the heap: each top candidate dictionary
receives an `ai_assessment` entry (the advisory text, or `None` when the
advisory call raised). -/
def enhance_loop_heap (assess : Dict → Option String) : Heap → List Nat → Heap
  | h, [] => h
  | h, r :: rs =>
    enhance_loop_heap assess
      (heapSet h r (dictSet (heapGet h r) "ai_assessment"
        (match assess (heapGet h r) with
         | some s => Val.vStr s
         | none => Val.vNone))) rs

/-- `CandidateRanker.rank_candidates` at the heap level.  Mirrors
`rank_candidates` stage by stage; returns the final heap, the scorer's
weight cache, and the references of the returned (possibly truncated)
ranked list — or `none` when the input list is empty and the final log
statement raises `IndexError`. -/
def rank_candidates_heap (u : Bool) (a : Option ParsedWeights)
    (assess : Dict → Option String) (st : Option Weights) (h : Heap)
    (candidateRefs : List Nat) (jobRef : Nat) (top_n : Option Nat) :
    Option (Heap × Option Weights × List Nat) :=
  let job := jobOfDict (heapGet h jobRef)
  let loop := score_loop_heap u a job h st candidateRefs []
  let sorted := loop.2.2.insertionSort (sortRefsLE loop.1)
  let h2 := rank_loop_heap loop.1 1 sorted
  let h3 :=
    match u, top_n with
    | true, some n =>
      if n = 0 then h2 else enhance_loop_heap assess h2 (sorted.take n)
    | _, _ => h2
  match sorted.head? with
  | none => none
  | some _ =>
    some (h3, loop.2.1,
      match top_n with
      | some n => if n = 0 then sorted else sorted.take n
      | none => sorted)

/-! ### Frame lemmas for the heap model -/

theorem heapGet_heapSet_ne {h : Heap} {i j : Nat} {d : Dict} (hne : i ≠ j) :
    heapGet (heapSet h j d) i = heapGet h i := by
  unfold heapGet heapSet
  rw [List.getD_eq_getElem?_getD, List.getD_eq_getElem?_getD,
    List.getElem?_set_ne (Ne.symm hne)]

theorem heapGet_append_lt {h : Heap} {L : List Dict} {i : Nat}
    (hi : i < h.length) :
    heapGet (h ++ L) i = heapGet h i := by
  unfold heapGet
  rw [List.getD_eq_getElem?_getD, List.getD_eq_getElem?_getD,
    List.getElem?_append_left hi]

theorem length_heapSet (h : Heap) (r : Nat) (d : Dict) :
    (heapSet h r d).length = h.length := by
  simp [heapSet]

theorem alloc_scored_length (h : Heap) (cd : Dict) (s : ℚ) (b : Breakdown) :
    (alloc_scored h cd s b).length = h.length + 1 := by
  simp [alloc_scored, length_heapSet, heapSet]

theorem alloc_scored_preserve {h : Heap} (cd : Dict) (s : ℚ) (b : Breakdown)
    {i : Nat} (hi : i < h.length) :
    heapGet (alloc_scored h cd s b) i = heapGet h i := by
  unfold alloc_scored
  dsimp only
  rw [heapGet_heapSet_ne (Nat.ne_of_lt hi), heapGet_heapSet_ne (Nat.ne_of_lt hi),
    heapGet_append_lt hi]

theorem score_loop_heap_spec (u : Bool) (a : Option ParsedWeights) (j : Job) :
    ∀ (rs : List Nat) (h : Heap) (st : Option Weights) (acc : List Nat),
      h.length ≤ (score_loop_heap u a j h st rs acc).1.length ∧
      (∀ i, i < h.length →
        heapGet (score_loop_heap u a j h st rs acc).1 i = heapGet h i) ∧
      (∀ r ∈ (score_loop_heap u a j h st rs acc).2.2,
        r ∈ acc ∨ (h.length ≤ r ∧ r < (score_loop_heap u a j h st rs acc).1.length)) := by
  intro rs
  induction rs with
  | nil =>
    intro h st acc
    exact ⟨le_refl _, fun _ _ => rfl, fun r hr => Or.inl hr⟩
  | cons r rs ih =>
    intro h st acc
    rw [score_loop_heap]
    obtain ⟨ih1, ih2, ih3⟩ := ih
      (alloc_scored h (heapGet h r)
        (score_candidate u a st (candOfDict (heapGet h r)) j).2.1
        (score_candidate u a st (candOfDict (heapGet h r)) j).2.2)
      (score_candidate u a st (candOfDict (heapGet h r)) j).1 (acc ++ [h.length])
    rw [alloc_scored_length] at ih1
    refine ⟨le_trans (Nat.le_succ _) ih1, ?_, ?_⟩
    · intro i hi
      rw [ih2 i (by rw [alloc_scored_length]; omega),
        alloc_scored_preserve _ _ _ hi]
    · intro x hx
      rcases ih3 x hx with hmem | ⟨hge, hlt⟩
      · rcases List.mem_append.mp hmem with hacc | hnew
        · exact Or.inl hacc
        · rcases List.mem_singleton.mp hnew with rfl
          exact Or.inr ⟨le_refl _, lt_of_lt_of_le (Nat.lt_succ_self _) ih1⟩
      · rw [alloc_scored_length] at hge
        exact Or.inr ⟨by omega, hlt⟩

theorem rank_loop_heap_preserve :
    ∀ (rs : List Nat) (h : Heap) (rank i : Nat), (∀ r ∈ rs, i ≠ r) →
      heapGet (rank_loop_heap h rank rs) i = heapGet h i
  | [], _, _, _, _ => rfl
  | r :: rs, h, rank, i, hne => by
    rw [rank_loop_heap,
      rank_loop_heap_preserve rs _ (rank + 1) i
        (fun x hx => hne x (List.mem_cons_of_mem r hx)),
      heapGet_heapSet_ne (hne r (List.mem_cons_self r rs))]

theorem enhance_loop_heap_preserve (assess : Dict → Option String) :
    ∀ (rs : List Nat) (h : Heap) (i : Nat), (∀ r ∈ rs, i ≠ r) →
      heapGet (enhance_loop_heap assess h rs) i = heapGet h i
  | [], _, _, _ => rfl
  | r :: rs, h, i, hne => by
    rw [enhance_loop_heap,
      enhance_loop_heap_preserve assess rs _ i
        (fun x hx => hne x (List.mem_cons_of_mem r hx)),
      heapGet_heapSet_ne (hne r (List.mem_cons_self r rs))]

/-- C10: `rank_candidates` never mutates its inputs.  Whenever the
heap-level model returns, every dictionary that existed before the call —
in particular every input candidate dictionary and the job dictionary —
holds exactly the entries it held before, and every reference in the
returned list is a fresh cell (`match_score`, `match_details`, `ranking`
and `ai_assessment` are only ever written to the copies). -/
theorem claim_C10_no_mutation (u : Bool) (a : Option ParsedWeights)
    (assess : Dict → Option String) (st : Option Weights) (h : Heap)
    (candidateRefs : List Nat) (jobRef : Nat) (top_n : Option Nat)
    (res : Heap × Option Weights × List Nat)
    (heq : rank_candidates_heap u a assess st h candidateRefs jobRef top_n = some res) :
    (∀ i, i < h.length → heapGet res.1 i = heapGet h i) ∧
    (∀ r ∈ res.2.2, h.length ≤ r) := by
  obtain ⟨hlen, hpres, hmem⟩ := score_loop_heap_spec u a
    (jobOfDict (heapGet h jobRef)) candidateRefs h st []
  unfold rank_candidates_heap at heq
  dsimp only at heq
  set loop := score_loop_heap u a (jobOfDict (heapGet h jobRef)) h st
    candidateRefs [] with hloop
  set sorted := loop.2.2.insertionSort (sortRefsLE loop.1) with hsorted
  have hsortmem : ∀ r ∈ sorted, h.length ≤ r := by
    intro r hr
    rcases hmem r ((List.mem_insertionSort (sortRefsLE loop.1)).mp hr) with hfalse | hok
    · exact absurd hfalse (List.not_mem_nil r)
    · exact hok.1
  set h2 := rank_loop_heap loop.1 1 sorted with hh2
  have hpres2 : ∀ i, i < h.length → heapGet h2 i = heapGet h i := by
    intro i hi
    rw [hh2, rank_loop_heap_preserve sorted loop.1 1 i
      (fun r hr => Nat.ne_of_lt (lt_of_lt_of_le hi (hsortmem r hr))), hpres i hi]
  set h3 := (match u, top_n with
    | true, some n =>
      if n = 0 then h2 else enhance_loop_heap assess h2 (sorted.take n)
    | _, _ => h2) with hh3
  have hpres3 : ∀ i, i < h.length → heapGet h3 i = heapGet h i := by
    intro i hi
    have henh : ∀ n : Nat,
        heapGet (enhance_loop_heap assess h2 (sorted.take n)) i = heapGet h2 i :=
      fun n => enhance_loop_heap_preserve assess (sorted.take n) h2 i
        (fun r hr => Nat.ne_of_lt (lt_of_lt_of_le hi
          (hsortmem r ((List.take_sublist n sorted).subset hr))))
    rw [hh3]
    cases u <;> cases top_n <;> simp only
    · exact hpres2 i hi
    · exact hpres2 i hi
    · exact hpres2 i hi
    · split
      · exact hpres2 i hi
      · rw [henh _, hpres2 i hi]
  rcases hhead : sorted.head? with _ | e
  · rw [hhead] at heq
    exact Option.noConfusion heq
  · rw [hhead] at heq
    dsimp only at heq
    cases heq
    refine ⟨hpres3, ?_⟩
    intro r hr
    apply hsortmem
    rcases top_n with _ | n
    · exact hr
    · by_cases hn : n = 0
      · simpa [hn] using hr
      · simp only [hn, if_false] at hr
        exact (List.take_sublist n sorted).subset hr

/-- Witness for C10: ranking one candidate against a job (with truncation
and the advisory enhancement path active) leaves both input dictionaries
untouched. -/
theorem claim_C10_no_mutation_witness :
    heapGet ((rank_candidates_heap true none (fun _ => none) none
      [[("full_name", Val.vStr "A"), ("skills", Val.vList ["python"]),
        ("experience_years", Val.vNat 3), ("location", Val.vStr "x"),
        ("education", Val.vStr "bs")],
       [("title", Val.vStr "t"), ("required_skills", Val.vList ["python"]),
        ("experience_level", Val.vStr "mid"), ("location", Val.vStr "x")]]
      [0] 1 (some 1)).getD ([], none, [])).1 0 =
      heapGet
      [[("full_name", Val.vStr "A"), ("skills", Val.vList ["python"]),
        ("experience_years", Val.vNat 3), ("location", Val.vStr "x"),
        ("education", Val.vStr "bs")],
       [("title", Val.vStr "t"), ("required_skills", Val.vList ["python"]),
        ("experience_level", Val.vStr "mid"), ("location", Val.vStr "x")]] 0 ∧
    heapGet ((rank_candidates_heap true none (fun _ => none) none
      [[("full_name", Val.vStr "A"), ("skills", Val.vList ["python"]),
        ("experience_years", Val.vNat 3), ("location", Val.vStr "x"),
        ("education", Val.vStr "bs")],
       [("title", Val.vStr "t"), ("required_skills", Val.vList ["python"]),
        ("experience_level", Val.vStr "mid"), ("location", Val.vStr "x")]]
      [0] 1 (some 1)).getD ([], none, [])).1 1 =
      heapGet
      [[("full_name", Val.vStr "A"), ("skills", Val.vList ["python"]),
        ("experience_years", Val.vNat 3), ("location", Val.vStr "x"),
        ("education", Val.vStr "bs")],
       [("title", Val.vStr "t"), ("required_skills", Val.vList ["python"]),
        ("experience_level", Val.vStr "mid"), ("location", Val.vStr "x")]] 1 := by
  cases hres : rank_candidates_heap true none (fun _ => none) none
      [[("full_name", Val.vStr "A"), ("skills", Val.vList ["python"]),
        ("experience_years", Val.vNat 3), ("location", Val.vStr "x"),
        ("education", Val.vStr "bs")],
       [("title", Val.vStr "t"), ("required_skills", Val.vList ["python"]),
        ("experience_level", Val.vStr "mid"), ("location", Val.vStr "x")]]
      [0] 1 (some 1) with
  | none => exact absurd hres (by with_unfolding_all decide)
  | some res =>
    have h := claim_C10_no_mutation true none (fun _ => none) none
      [[("full_name", Val.vStr "A"), ("skills", Val.vList ["python"]),
        ("experience_years", Val.vNat 3), ("location", Val.vStr "x"),
        ("education", Val.vStr "bs")],
       [("title", Val.vStr "t"), ("required_skills", Val.vList ["python"]),
        ("experience_level", Val.vStr "mid"), ("location", Val.vStr "x")]]
      [0] 1 (some 1) res hres
    exact ⟨h.1 0 (by decide), h.1 1 (by decide)⟩

end Hiring
